import Mathlib

/-!
Verification of the Wordle-Solver repository core against its specification.

The Python modules `solver.py`, `helper.py`, `solver_hard_mode.py` and
`average_score_calculator.py` are shallowly embedded below.  Words are
`List Char` (the repository fixes the word length at 5; the indexed
`range(5)` loops of the source are rendered as zips/folds which coincide
with the source on length-5 words, the only domain the word lists supply).
The module-level word lists are loaded from text files that are not part
of the sources, so they appear as parameters.  The mutable module-level
pattern cache is threaded explicitly as an association list.
-/

namespace WordleSolver

abbrev Word := List Char

/-- The `answer_copy` consumption step of `get_feedback` (`solver.py`): scan the
copy left to right and blank the first cell still holding `c`
(`for j in range(5): if answer_copy[j] == guess[i]: answer_copy[j] = None; break`). -/
def consumeFirst : List (Option Char) → Char → List (Option Char)
  | [], _ => []
  | x :: xs, c => if x = some c then none :: xs else x :: consumeFirst xs c

/-- Second pass of `get_feedback` (`solver.py` lines 35-43): walk the
positions left to right; a position whose first-pass mark is `'0'` and whose
guess letter still occurs in the unconsumed copy becomes `'1'` and consumes
the first matching copy cell, every other position keeps its mark. -/
def pass2go : List Char → List Char → List (Option Char) → List Char
  | g :: gs, m :: ms, copy =>
    if m = '0' ∧ some g ∈ copy then
      '1' :: pass2go gs ms (consumeFirst copy g)
    else
      m :: pass2go gs ms copy
  | _, _, _ => []

/-- Embedding of `get_feedback(guess, answer)` from `solver.py` lines 23-45 (identical in
`helper.py`): first pass marks exact matches `'2'` and blanks the matched
copy cells, second pass is `pass2go`.  The `for i in range(5)` loops are
rendered positionwise over the zipped words. -/
def get_feedback (guess answer : Word) : Word :=
  pass2go guess
    (List.zipWith (fun g a => if g = a then '2' else '0') guess answer)
    (List.zipWith (fun g a => if g = a then none else some a) guess answer)

/-- Second pass as worded by the spec (§4.1): for each position in
left-to-right order, an exact position is EXACT; otherwise, if the guess
letter occurs among the secret's unconsumed letters it is MISPLACED and the
first (leftmost) unconsumed occurrence is consumed (`List.erase` removes
exactly the first occurrence), else ABSENT. -/
def specGo : List (Char × Char) → List Char → List Char
  | [], _ => []
  | (g, s) :: rest, rem =>
    if g = s then '2' :: specGo rest rem
    else if g ∈ rem then '1' :: specGo rest (rem.erase g)
    else '0' :: specGo rest rem

/-- Modelled from the spec: §4.1's two-pass feedback description.  Pass 1
determines the exact positions and leaves the remaining secret letters
unconsumed; pass 2 (`specGo`) marks misplaced letters consuming leftmost
unconsumed occurrences. -/
def feedbackSpec (guess secret : Word) : Word :=
  specGo (guess.zip secret)
    ((guess.zip secret).filterMap (fun p => if p.1 = p.2 then none else some p.2))

def wSPEED : Word := "SPEED".toList
def wERASE : Word := "ERASE".toList
def wCRANE : Word := "CRANE".toList
def wSLATE : Word := "SLATE".toList
def wTRACE : Word := "TRACE".toList
def wCRATE : Word := "CRATE".toList

/-- The module-level `_precomputed_patterns` dict of `solver.py`, keyed
`[answer][guess] -> pattern`, rendered as an association list threaded
explicitly through the functions that read and lazily extend it. -/
abbrev Cache := List ((Word × Word) × Word)

def cLookup : Cache → Word × Word → Option Word
  | [], _ => none
  | (k, v) :: rest, key => if k = key then some v else cLookup rest key

/-- The lazy-fill idiom of `filter_possible_answers` and `minimax_entropy`
(`solver.py`): use the cached pattern when present, otherwise compute
`get_feedback(guess, word)` and store it (setting `_cache_dirty`, which has
no observable effect on results). -/
def lookupOrCompute (c : Cache) (answer guess : Word) : Word × Cache :=
  match cLookup c (answer, guess) with
  | some p => (p, c)
  | none =>
    (get_feedback guess answer,
      ((answer, guess), get_feedback guess answer) :: c)

/-- Inner loop of `filter_possible_answers` (`solver.py` lines 88-99) for
one `(guess, feedback)` pair when the pattern cache is non-empty: keep the
words whose (cached or freshly computed) pattern equals the feedback. -/
def filterWords (g fb : Word) : Cache → List Word → List Word × Cache
  | c, [] => ([], c)
  | c, w :: ws =>
    let pc := lookupOrCompute c w g
    let rest := filterWords g fb pc.2 ws
    (if pc.1 = fb then w :: rest.1 else rest.1, rest.2)

/-- One `(guess, feedback)` iteration of `filter_possible_answers`
(`solver.py` lines 87-107): the cache path when `_precomputed_patterns` is
non-empty, else the plain `get_feedback` list comprehension. -/
def filterStep (acc : List Word × Cache) (p : Word × Word) :
    List Word × Cache :=
  if acc.2.isEmpty then
    (acc.1.filter (fun w => decide (get_feedback p.1 w = p.2)), acc.2)
  else
    filterWords p.1 p.2 acc.2 acc.1

/-- Embedding of `filter_possible_answers(guesses, feedbacks)` from `solver.py` lines
82-108.  `pa` stands for the module-level `possible_answers` list (loaded
from a text file that is not part of the sources). -/
def filter_possible_answers (pa : List Word) (c : Cache)
    (guesses feedbacks : List Word) : List Word × Cache :=
  (guesses.zip feedbacks).foldl filterStep (pa, c)

/-- The cache agrees with the feedback encoder: every entry `[a][g]` holds
`get_feedback(g, a)`.  This is an invariant of the running system (entries
are only ever created from `get_feedback`, in `precompute_feedback_patterns`
and in the lazy fills). -/
def CacheOK (c : Cache) : Prop :=
  ∀ a g p, cLookup c (a, g) = some p → p = get_feedback g a

/-- The `pattern_counts.get(pattern, 0) + 1` update on the insertion-ordered dict of
`minimax_entropy`: bump the count of `p`, appending a new key at the end. -/
def bump : List (Word × Nat) → Word → List (Word × Nat)
  | [], p => [(p, 1)]
  | (q, n) :: rest, p =>
    if q = p then (q, n + 1) :: rest else (q, n) :: bump rest p

/-- One answer of the cache-backed bucket loop of `minimax_entropy`:
`pattern = _precomputed_patterns[answer][guess]` (lazily filled), then
`pattern_counts[pattern] += 1`.  The local `pattern` of the source is
inlined (the lookup is pure). -/
def countStep (g : Word) (acc : List (Word × Nat) × Cache) (a : Word) :
    List (Word × Nat) × Cache :=
  (bump acc.1 (lookupOrCompute acc.2 a g).1, (lookupOrCompute acc.2 a g).2)

/-- Pattern-bucket loop of `minimax_entropy` (`solver.py` lines 141-156):
for one pool word `g`, count the candidate answers per feedback pattern,
via the cache when it is non-empty, else via plain `get_feedback`. -/
def patternCountsC (c : Cache) (g : Word) (answers : List Word) :
    List (Word × Nat) × Cache :=
  if c.isEmpty then
    (answers.foldl (fun counts a => bump counts (get_feedback g a)) [], c)
  else
    answers.foldl (countStep g) ([], c)

/-- The `total = sum(pattern_counts.values())` and
`expected = sum((count/total) * count ...)` of `solver.py` lines 157-159.
Rendered in exact rational arithmetic, an idealization of the source's
IEEE-double arithmetic whose comparisons can split exact ties; the theorems
below about `minimax_entropy` only exercise paths that never score. -/
def expectedScore (counts : List (Word × Nat)) : ℚ :=
  let total : ℚ := (counts.foldl (fun s q => s + q.2) 0 : ℕ)
  counts.foldl (fun s q => s + ((q.2 : ℚ) / total) * q.2) 0

def noCandidatesMsg : String := "No possible answers found"
def unpackErrMsg : String := "ValueError: too many values to unpack"

/-- Precomputed-first-guess fast path of `minimax_entropy` (`solver.py`
lines 124-128): when the first-guess cache is loaded, the current candidate
set equals (as a set) the freshly re-read full answer list, and the cached
word is in one of the two pools, return it.  (`fg` is
`_first_guess_cache.get('minimax_entropy')`; the re-read file contents are
the `fullAnswers` parameter; `len(possible_answers) == len(possible_answers)`
in the source compares the shadowing parameter with itself and is always
true.) -/
def fastPathGuess (fg : Option Word) (fullAnswers possible allowed : List Word) :
    Option Word :=
  match fg with
  | none => none
  | some w =>
    if (possible.all (fun x => decide (x ∈ fullAnswers)) &&
        fullAnswers.all (fun x => decide (x ∈ possible))) &&
        (decide (w ∈ allowed) || decide (w ∈ possible)) then
      some w
    else none

/-- Scoring-pool selection of `minimax_entropy` (`solver.py` lines
136-141): the candidate list itself when it has at most 2 words, else
`list(set(allowed_guesses + possible_answers))`, rendered as
`(allowed ++ possible).dedup` (Python's set iteration order is
unspecified; every property claimed of the result is order-independent). -/
def minimax_pool (possible allowed : List Word) : List Word :=
  if possible.length ≤ 2 then possible else (allowed ++ possible).dedup

/-- One pool word of the scoring loop of `minimax_entropy` (`solver.py`
lines 142-166): bucket the candidates, compute the expected remaining
count, and update the running minimum (`float('inf')` is rendered as
`none`) and the tied-best list. -/
def scoreStep (possible : List Word) (acc : Option (ℚ × List Word) × Cache)
    (g : Word) : Option (ℚ × List Word) × Cache :=
  match acc.1 with
  | none =>
    (some (expectedScore (patternCountsC acc.2 g possible).1, [g]),
      (patternCountsC acc.2 g possible).2)
  | some bb =>
    if expectedScore (patternCountsC acc.2 g possible).1 < bb.1 then
      (some (expectedScore (patternCountsC acc.2 g possible).1, [g]),
        (patternCountsC acc.2 g possible).2)
    else if expectedScore (patternCountsC acc.2 g possible).1 = bb.1 then
      (some (bb.1, bb.2 ++ [g]), (patternCountsC acc.2 g possible).2)
    else (some (bb.1, bb.2), (patternCountsC acc.2 g possible).2)

/-- Final selection of `minimax_entropy` (`solver.py` lines 167-179):
`if not best_guesses: return allowed_guesses[0]`, else prefer a tied-best
guess that is still a candidate, else `best_guesses[0]`. -/
def minimax_select (possible allowed : List Word)
    (st : Option (ℚ × List Word) × Cache) : Word × Cache :=
  match st.1 with
  | none => (allowed.getD 0 [], st.2)
  | some bb =>
    match bb.2.find? (fun g => decide (g ∈ possible)) with
    | some g => (g, st.2)
    | none => (bb.2.getD 0 [], st.2)

/-- Scoring and selection of `minimax_entropy` (`solver.py` lines 142-179)
once past the degenerate cases: fold the scoring loop over the pool, then
select. -/
def minimax_core (c : Cache) (possible allowed : List Word) : Word × Cache :=
  minimax_select possible allowed
    ((minimax_pool possible allowed).foldl (scoreStep possible)
      ((none : Option (ℚ × List Word)), c))

/-- Embedding of `minimax_entropy(possible_answers, allowed_guesses)` from `solver.py`
lines 123-179.  The Python `raise ValueError` becomes `Except.error`. -/
def minimax_entropy (fg : Option Word) (fullAnswers : List Word) (c : Cache)
    (possible allowed : List Word) : Except String (Word × Cache) :=
  match fastPathGuess fg fullAnswers possible allowed with
  | some w => .ok (w, c)
  | none =>
    if possible.length = 0 then .error noCandidatesMsg
    else if possible.length = 1 then .ok (possible.getD 0 [], c)
    else .ok (minimax_core c possible allowed)

/-- Constraint state accumulated by `enforce_hard_mode_constraints`
(`solver_hard_mode.py` lines 6-33): `green_positions` (a 5-slot array,
rendered as a map from position to letter), `yellow_letters` and
`yellow_positions` (flattened to (letter, position) pairs; both are only
ever queried through membership, so set/dict vs list is immaterial). -/
structure HMState where
  greens : Nat → Option Char
  yellows : List Char
  ypos : List (Char × Nat)

/-- One position of one history pair:
`if f == '2': green_positions[i] = g_letter;
elif f == '1': yellow_letters.add(g_letter); yellow_positions[g_letter].add(i)`. -/
def hmStep (st : HMState) (q : Nat × Char × Char) : HMState :=
  if q.2.2 = '2' then
    { st with greens := fun j => if j = q.1 then some q.2.1 else st.greens j }
  else if q.2.2 = '1' then
    { st with yellows := q.2.1 :: st.yellows, ypos := (q.2.1, q.1) :: st.ypos }
  else st

/-- The fold `for prev_guess, fb in zip(guesses, feedbacks): for i, (g_letter, f) in
enumerate(zip(prev_guess, fb)): ...` -/
def hmFold (guesses feedbacks : List Word) : HMState :=
  (guesses.zip feedbacks).foldl
    (fun st p => ((p.1.zip p.2).enum).foldl hmStep st)
    ⟨fun _ => none, [], []⟩

/-- Embedding of `enforce_hard_mode_constraints(guesses, feedbacks, guess)` from
`solver_hard_mode.py`: green check over the 5 positions, then for each
yellow letter, presence in the guess and absence from its flagged
positions. -/
def enforce_hard_mode_constraints (guesses feedbacks : List Word)
    (guess : Word) : Bool :=
  ((List.range 5).all fun i =>
    match (hmFold guesses feedbacks).greens i with
    | none => true
    | some l => decide (guess.getD i ' ' = l)) &&
  ((hmFold guesses feedbacks).yellows.all fun l =>
    decide (l ∈ guess) &&
    ((hmFold guesses feedbacks).ypos.all fun q =>
      !(decide (q.1 = l) && decide (guess.getD q.2 ' ' = l))))

/-- The unpack `guess, _ = strategy_func(...)` in `simulate_game`
(`average_score_calculator.py` line 13): Python unpacks the returned value
into two names; a string unpacks into its characters and fails with
`ValueError` unless it has exactly two of them. -/
def unpackStr2 (w : Word) : Except String (Word × Word) :=
  match w with
  | [a, b] => .ok ([a], [b])
  | _ => .error unpackErrMsg

/-- Round loop of `simulate_game` (`average_score_calculator.py` lines
9-25): up to six attempts; the strategy is `minimax_entropy` (what
`calculate_average_tries` passes); feedback is computed directly with
`get_feedback` and the candidate list narrowed by a plain comprehension. -/
def simGo (fg : Option Word) (fullAnswers allowed : List Word)
    (answer : Word) : Nat → List Word → Cache → Except String Nat
  | 0, _, _ => .ok 7
  | n + 1, possible, c =>
    match minimax_entropy fg fullAnswers c possible allowed with
    | .error e => .error e
    | .ok wc =>
      match unpackStr2 wc.1 with
      | .error e => .error e
      | .ok gpair =>
        if gpair.1 = answer then .ok (6 - n)
        else
          let fb := get_feedback gpair.1 answer
          simGo fg fullAnswers allowed answer n
            (possible.filter fun word =>
              decide (get_feedback gpair.1 word = fb)) wc.2

/-- Embedding of `simulate_game(answer, minimax_entropy, allowed_guesses,
possible_answers)`: six rounds, `7` as the fail-safe return. -/
def simulate_game (fg : Option Word) (fullAnswers : List Word) (c : Cache)
    (allowed possible_answers : List Word) (answer : Word) :
    Except String Nat :=
  simGo fg fullAnswers allowed answer 6 possible_answers c

/-- Generic glue: a `zipWith` is a `map` over the `zip`. -/
theorem zipWith_eq_map_zip {α β γ : Type} (f : α → β → γ) :
    ∀ (l1 : List α) (l2 : List β),
      List.zipWith f l1 l2 = (l1.zip l2).map (fun p => f p.1 p.2)
  | [], _ => by simp
  | _ :: _, [] => by simp
  | a :: l1, b :: l2 => by
    simp [List.zipWith, List.zip_cons_cons, zipWith_eq_map_zip f l1 l2]

/-- Generic glue: `reduceOption` after `map` is `filterMap`. -/
theorem reduceOption_map_eq_filterMap {α β : Type} (f : α → Option β)
    (l : List α) : (l.map f).reduceOption = l.filterMap f := by
  show List.filterMap id (l.map f) = l.filterMap f
  rw [List.filterMap_map]
  rfl

/-- Consuming the first copy cell holding `c` removes exactly the first
occurrence of `c` from the unconsumed letters. -/
theorem reduceOption_consumeFirst (c : Char) :
    ∀ copy : List (Option Char),
      (consumeFirst copy c).reduceOption = copy.reduceOption.erase c
  | [] => by simp [consumeFirst]
  | x :: xs => by
    by_cases hx : x = some c
    · subst hx
      simp [consumeFirst, List.reduceOption_cons_of_some, List.erase_cons_head]
    · rw [consumeFirst, if_neg hx]
      cases x with
      | none =>
        simp [List.reduceOption_cons_of_none, reduceOption_consumeFirst c xs]
      | some a =>
        have hac : a ≠ c := fun h => hx (by rw [h])
        simp only [List.reduceOption_cons_of_some, reduceOption_consumeFirst c xs]
        rw [List.erase_cons_tail]
        simp [hac]

/-- The code's second pass agrees with the spec's second pass: marks come
from the zipped positions, the copy's unconsumed letters are its
`reduceOption`. -/
theorem pass2go_eq_specGo :
    ∀ (ps : List (Char × Char)) (copy : List (Option Char)),
      pass2go (ps.map Prod.fst)
        (ps.map (fun p => if p.1 = p.2 then '2' else '0')) copy =
        specGo ps copy.reduceOption
  | [], copy => by simp [pass2go, specGo]
  | (g, s) :: rest, copy => by
    by_cases hgs : g = s
    · simp only [List.map_cons, if_pos hgs, specGo, hgs]
      rw [pass2go, if_neg (by simp)]
      exact congrArg ('2' :: ·) (pass2go_eq_specGo rest copy)
    · simp only [List.map_cons, if_neg hgs, specGo, if_neg hgs]
      by_cases hmem : some g ∈ copy
      · rw [pass2go, if_pos ⟨rfl, hmem⟩,
          if_pos (List.reduceOption_mem_iff.mpr hmem)]
        rw [pass2go_eq_specGo rest (consumeFirst copy g),
          reduceOption_consumeFirst]
      · rw [pass2go, if_neg (by simp [hmem]),
          if_neg (fun h => hmem (List.reduceOption_mem_iff.mp h))]
        exact congrArg ('0' :: ·) (pass2go_eq_specGo rest copy)

/-- C1: for length-5 words, `get_feedback` computes exactly the spec's
two-pass pattern: exact matches consume their secret letters, then each
remaining position is MISPLACED (consuming the leftmost unconsumed
occurrence) or ABSENT. -/
theorem get_feedback_two_pass (guess secret : Word)
    (hg : guess.length = 5) (hs : secret.length = 5) :
    get_feedback guess secret = feedbackSpec guess secret := by
  have hle : guess.length ≤ secret.length := by omega
  have h := pass2go_eq_specGo (guess.zip secret)
    ((guess.zip secret).map (fun p => if p.1 = p.2 then none else some p.2))
  rw [List.map_fst_zip guess secret hle, reduceOption_map_eq_filterMap] at h
  unfold get_feedback feedbackSpec
  rw [zipWith_eq_map_zip, zipWith_eq_map_zip]
  exact h

/-- C1 witness: the equivalence applied at guess CRANE, secret SLATE. -/
theorem get_feedback_two_pass_witness :
    wCRANE.length = 5 ∧ wSLATE.length = 5 ∧
      get_feedback wCRANE wSLATE = feedbackSpec wCRANE wSLATE :=
  ⟨by decide, by decide,
    get_feedback_two_pass wCRANE wSLATE (by decide) (by decide)⟩

/-- C2 counterexample: the spec's worked example is wrong about the code —
`get_feedback("SPEED", "ERASE")` is not `"00100"` (the 'S' of SPEED does
occur in ERASE and ERASE holds two E's). -/
theorem speed_erase_not_spec_example :
    get_feedback wSPEED wERASE ≠ ("00100".toList) := by decide

/-- C2 amended: `get_feedback("SPEED", "ERASE")` yields `"10110"`:
position 0 'S' MISPLACED, position 1 'P' ABSENT, position 2 'E' MISPLACED,
position 3 'E' MISPLACED (ERASE holds a second E), position 4 'D' ABSENT. -/
theorem speed_erase_feedback :
    get_feedback wSPEED wERASE = ("10110".toList) := by decide

/-- When every mark is already `'2'`, the second pass changes nothing. -/
theorem pass2go_of_marks_exact :
    ∀ (gs ms : List Char) (copy : List (Option Char)),
      gs.length = ms.length → (∀ m ∈ ms, m = '2') →
      pass2go gs ms copy = ms
  | [], [], _, _, _ => rfl
  | g :: gs, m :: ms, copy, hlen, h2 => by
    have hm : m = '2' := h2 m (by simp)
    rw [pass2go, if_neg (by simp [hm])]
    exact congrArg (m :: ·) (pass2go_of_marks_exact gs ms copy
      (by simpa using hlen) (fun x hx => h2 x (by simp [hx])))

/-- If the second pass emits only `'2'`s then every mark was `'2'`. -/
theorem marks_exact_of_pass2go :
    ∀ (gs ms : List Char) (copy : List (Option Char)),
      gs.length = ms.length →
      pass2go gs ms copy = List.replicate ms.length '2' →
      ∀ m ∈ ms, m = '2'
  | [], [], _, _, _ => by simp
  | g :: gs, m :: ms, copy, hlen, hrep => by
    rw [pass2go] at hrep
    rw [List.length_cons, List.replicate_succ] at hrep
    by_cases hc : m = '0' ∧ some g ∈ copy
    · rw [if_pos hc] at hrep
      exact absurd (List.head_eq_of_cons_eq hrep) (by decide)
    · rw [if_neg hc] at hrep
      have hm : m = '2' := List.head_eq_of_cons_eq hrep
      have htl := List.tail_eq_of_cons_eq hrep
      intro x hx
      rcases List.mem_cons.mp hx with h | h
      · exact h ▸ hm
      · exact marks_exact_of_pass2go gs ms copy (by simpa using hlen) htl x h

/-- All first-pass marks are `'2'` exactly when the words agree. -/
theorem marks_all_exact_iff :
    ∀ (g s : List Char), g.length = s.length →
      ((∀ m ∈ List.zipWith (fun g a => if g = a then '2' else '0') g s,
          m = '2') ↔ g = s)
  | [], [], _ => by simp
  | a :: g, b :: s, hlen => by
    simp only [List.zipWith_cons_cons, List.mem_cons, List.cons.injEq]
    constructor
    · intro h
      have hab : a = b := by
        by_cases hab : a = b
        · exact hab
        · exact absurd (h _ (Or.inl rfl)) (by simp [hab])
      exact ⟨hab, (marks_all_exact_iff g s (by simpa using hlen)).mp
        (fun m hm => h m (Or.inr hm))⟩
    · rintro ⟨hab, hgs⟩
      intro m hm
      rcases hm with hm | hm
      · simp [hab] at hm
        exact hm
      · exact (marks_all_exact_iff g s (by simpa using hlen)).mpr hgs m hm

/-- C8: for length-5 words, the feedback is the all-EXACT pattern `"22222"`
iff guess and secret coincide. -/
theorem get_feedback_all_exact_iff (guess secret : Word)
    (hg : guess.length = 5) (hs : secret.length = 5) :
    (get_feedback guess secret = List.replicate 5 '2' ↔ guess = secret) := by
  have hml : (List.zipWith (fun g a => if g = a then '2' else '0')
      guess secret).length = 5 := by
    rw [List.length_zipWith, hg, hs]; rfl
  have hgm : guess.length =
      (List.zipWith (fun g a => if g = a then '2' else '0')
        guess secret).length := by rw [hml, hg]
  constructor
  · intro h
    refine (marks_all_exact_iff guess secret (by omega)).mp ?_
    exact marks_exact_of_pass2go guess _ _ hgm (by rw [hml]; exact h)
  · intro h
    have h2 := (marks_all_exact_iff guess secret (by omega)).mpr h
    rw [get_feedback, pass2go_of_marks_exact guess _ _ hgm h2]
    exact List.eq_replicate_iff.mpr ⟨hml, h2⟩

/-- C8 witness: the iff applied at guess = secret = CRANE. -/
theorem get_feedback_all_exact_iff_witness :
    wCRANE.length = 5 ∧
      (get_feedback wCRANE wCRANE = List.replicate 5 '2' ↔ wCRANE = wCRANE) :=
  ⟨by decide, get_feedback_all_exact_iff wCRANE wCRANE (by decide) (by decide)⟩

theorem cacheOK_nil : CacheOK [] := fun _ _ _ h => nomatch h

theorem lookupOrCompute_fst {c : Cache} (hc : CacheOK c) (a g : Word) :
    (lookupOrCompute c a g).1 = get_feedback g a := by
  unfold lookupOrCompute
  cases h : cLookup c (a, g) with
  | none => rfl
  | some p => exact hc a g p h

theorem lookupOrCompute_ok {c : Cache} (hc : CacheOK c) (a g : Word) :
    CacheOK (lookupOrCompute c a g).2 := by
  unfold lookupOrCompute
  cases h : cLookup c (a, g) with
  | none =>
    intro a' g' p hp
    rw [cLookup] at hp
    by_cases hk : ((a, g) : Word × Word) = (a', g')
    · rw [if_pos hk] at hp
      cases hp
      cases hk
      rfl
    · rw [if_neg hk] at hp
      exact hc a' g' p hp
  | some p => exact hc

theorem lookupOrCompute_ne_nil {c : Cache} (hne : c ≠ []) (a g : Word) :
    (lookupOrCompute c a g).2 ≠ [] := by
  unfold lookupOrCompute
  cases cLookup c (a, g) with
  | none => simp
  | some p => exact hne

theorem filterWords_eq (g fb : Word) :
    ∀ (ws : List Word) (c : Cache), CacheOK c →
      (filterWords g fb c ws).1 =
          ws.filter (fun w => decide (get_feedback g w = fb)) ∧
        CacheOK (filterWords g fb c ws).2
  | [], c, hc => ⟨rfl, hc⟩
  | w :: ws, c, hc => by
    have h1 := lookupOrCompute_fst hc w g
    have h2 := lookupOrCompute_ok hc w g
    have ih := filterWords_eq g fb ws (lookupOrCompute c w g).2 h2
    rw [filterWords]
    refine ⟨?_, ih.2⟩
    rw [List.filter_cons, h1, ih.1]
    by_cases hw : get_feedback g w = fb <;> simp [hw]

theorem filterWords_ne_nil (g fb : Word) :
    ∀ (ws : List Word) (c : Cache), c ≠ [] →
      (filterWords g fb c ws).2 ≠ []
  | [], _, hne => hne
  | w :: ws, _, hne =>
    filterWords_ne_nil g fb ws _ (lookupOrCompute_ne_nil hne w g)

theorem filter_fold :
    ∀ (L : List (Word × Word)) (acc : List Word × Cache), CacheOK acc.2 →
      (L.foldl filterStep acc).1 =
          acc.1.filter (fun w => decide (∀ p ∈ L, get_feedback p.1 w = p.2)) ∧
        CacheOK (L.foldl filterStep acc).2
  | [], acc, hc => ⟨by simp, hc⟩
  | p :: L, acc, hc => by
    have hstep :
        (filterStep acc p).1 =
            acc.1.filter (fun w => decide (get_feedback p.1 w = p.2)) ∧
          CacheOK (filterStep acc p).2 := by
      unfold filterStep
      by_cases hce : acc.2.isEmpty
      · rw [if_pos hce]
        exact ⟨rfl, hc⟩
      · rw [if_neg hce]
        exact filterWords_eq p.1 p.2 acc.1 acc.2 hc
    obtain ⟨hout, hcok⟩ := hstep
    have ih := filter_fold L (filterStep acc p) hcok
    rw [List.foldl_cons]
    refine ⟨?_, ih.2⟩
    rw [ih.1, hout, List.filter_filter]
    refine List.filter_congr ?_
    intro w _
    simp only [List.forall_mem_cons, Bool.decide_and]
    exact Bool.and_comm _ _

theorem filter_pa_eq (pa : List Word) (c : Cache) (guesses feedbacks : List Word)
    (hc : CacheOK c) :
    (filter_possible_answers pa c guesses feedbacks).1 =
        pa.filter (fun w =>
          decide (∀ p ∈ guesses.zip feedbacks, get_feedback p.1 w = p.2)) ∧
      CacheOK (filter_possible_answers pa c guesses feedbacks).2 :=
  filter_fold (guesses.zip feedbacks) (pa, c) hc

/-- C3: under a cache agreeing with the encoder, `filter_possible_answers`
returns exactly the Answer-Set words whose feedback against every guess of
the history equals the recorded feedback. -/
theorem filter_possible_answers_exact (pa : List Word) (c : Cache)
    (guesses feedbacks : List Word) (hc : CacheOK c) (w : Word) :
    w ∈ (filter_possible_answers pa c guesses feedbacks).1 ↔
      w ∈ pa ∧ ∀ p ∈ guesses.zip feedbacks, get_feedback p.1 w = p.2 := by
  rw [(filter_pa_eq pa c guesses feedbacks hc).1, List.mem_filter]
  simp

/-- C3 witness: filtering {CRANE, SLATE, TRACE} by the pair
(CRANE, "00202") with an empty cache. -/
theorem filter_possible_answers_exact_witness :
    CacheOK [] ∧
      (wSLATE ∈ (filter_possible_answers [wCRANE, wSLATE, wTRACE] []
          [wCRANE] [("00202".toList)]).1 ↔
        wSLATE ∈ [wCRANE, wSLATE, wTRACE] ∧
          ∀ p ∈ [wCRANE].zip [("00202".toList)],
            get_feedback p.1 wSLATE = p.2) :=
  ⟨cacheOK_nil,
    filter_possible_answers_exact [wCRANE, wSLATE, wTRACE] [] [wCRANE]
      [("00202".toList)] cacheOK_nil wSLATE⟩

/-- C9: the filter's output is a subset of the input candidate list, and
re-running the filter with the same history on its own output (and the
cache it produced) returns that output unchanged. -/
theorem filter_possible_answers_subset_idem (pa : List Word) (c : Cache)
    (guesses feedbacks : List Word) (hc : CacheOK c) :
    (∀ w ∈ (filter_possible_answers pa c guesses feedbacks).1, w ∈ pa) ∧
      (filter_possible_answers
          (filter_possible_answers pa c guesses feedbacks).1
          (filter_possible_answers pa c guesses feedbacks).2
          guesses feedbacks).1 =
        (filter_possible_answers pa c guesses feedbacks).1 := by
  have h1 := filter_pa_eq pa c guesses feedbacks hc
  have h2 := filter_pa_eq (filter_possible_answers pa c guesses feedbacks).1
    (filter_possible_answers pa c guesses feedbacks).2 guesses feedbacks h1.2
  constructor
  · intro w hw
    rw [h1.1] at hw
    exact (List.mem_filter.mp hw).1
  · rw [h2.1, h1.1, List.filter_filter]
    exact List.filter_congr (fun w _ => Bool.and_self _)

/-- C9 witness: the subset/idempotence conclusion at the C9 concrete
instance (empty starting cache, one-pair history). -/
theorem filter_possible_answers_subset_idem_witness :
    CacheOK [] ∧
      ((∀ w ∈ (filter_possible_answers [wCRANE, wSLATE] [] [wSLATE]
          [("22222".toList)]).1, w ∈ [wCRANE, wSLATE]) ∧
        (filter_possible_answers
            (filter_possible_answers [wCRANE, wSLATE] [] [wSLATE]
              [("22222".toList)]).1
            (filter_possible_answers [wCRANE, wSLATE] [] [wSLATE]
              [("22222".toList)]).2
            [wSLATE] [("22222".toList)]).1 =
          (filter_possible_answers [wCRANE, wSLATE] [] [wSLATE]
            [("22222".toList)]).1) :=
  ⟨cacheOK_nil,
    filter_possible_answers_subset_idem [wCRANE, wSLATE] [] [wSLATE]
      [("22222".toList)] cacheOK_nil⟩

theorem filterWords_sublist (g fb : Word) :
    ∀ (ws : List Word) (c : Cache),
      ((filterWords g fb c ws).1).Sublist ws
  | [], _ => List.Sublist.refl []
  | w :: ws, c => by
    rw [filterWords]
    by_cases hp : (lookupOrCompute c w g).1 = fb
    · rw [if_pos hp]
      exact List.Sublist.cons₂ w (filterWords_sublist g fb ws _)
    · rw [if_neg hp]
      exact List.Sublist.cons w (filterWords_sublist g fb ws _)

theorem filter_fold_sublist :
    ∀ (L : List (Word × Word)) (acc : List Word × Cache),
      ((L.foldl filterStep acc).1).Sublist acc.1
  | [], _ => List.Sublist.refl _
  | p :: L, acc => by
    have hstep : ((filterStep acc p).1).Sublist acc.1 := by
      unfold filterStep
      by_cases hce : acc.2.isEmpty
      · rw [if_pos hce]
        exact List.filter_sublist acc.1
      · rw [if_neg hce]
        exact filterWords_sublist p.1 p.2 acc.1 acc.2
    rw [List.foldl_cons]
    exact (filter_fold_sublist L (filterStep acc p)).trans hstep

/-- C10: the filter's output is an order-preserving sublist of the Answer
Set list it starts from, for every cache state and history. -/
theorem filter_possible_answers_sublist (pa : List Word) (c : Cache)
    (guesses feedbacks : List Word) :
    ((filter_possible_answers pa c guesses feedbacks).1).Sublist pa :=
  filter_fold_sublist (guesses.zip feedbacks) (pa, c)

/-- C6: when the first-guess fast path does not fire, an empty candidate
set makes `minimax_entropy` raise (`ValueError("No possible answers
found")`), and a singleton candidate set is returned immediately, before
any scoring. -/
theorem minimax_entropy_degenerate (fg : Option Word)
    (fullAnswers : List Word) (c : Cache) (possible allowed : List Word)
    (hguard : fastPathGuess fg fullAnswers possible allowed = none) :
    (possible.length = 0 →
      minimax_entropy fg fullAnswers c possible allowed =
        .error noCandidatesMsg) ∧
    (possible.length = 1 →
      minimax_entropy fg fullAnswers c possible allowed =
        .ok (possible.getD 0 [], c)) := by
  unfold minimax_entropy
  rw [hguard]
  constructor
  · intro h0
    rw [if_pos h0]
  · intro h1
    rw [if_neg (by omega), if_pos h1]

/-- C6 witness: the singleton candidate set {CRANE} (no first-guess cache
loaded) returns CRANE. -/
theorem minimax_entropy_degenerate_witness :
    fastPathGuess none [] [wCRANE] [] = none ∧
      (([wCRANE] : List Word).length = 1 →
        minimax_entropy none [] [] [wCRANE] [] =
          .ok (([wCRANE] : List Word).getD 0 [], [])) :=
  ⟨rfl, (minimax_entropy_degenerate none [] [] [wCRANE] [] rfl).2⟩

/-- C7 (code bug): `simulate_game` does `guess, _ = strategy_func(...)`,
but `minimax_entropy` returns a plain 5-character word, so the unpack
raises `ValueError` in round 1 instead of producing a rounds-to-solve value
in [1, 7].  Here evaluated at secret CRANE with Answer Set {CRANE}: the
strategy returns "CRANE" and the unpack fails. -/
theorem simulate_game_unpack_error :
    simulate_game none [] [] [] [wCRANE] wCRANE = .error unpackErrMsg := by
  rfl

theorem hmStep_greens (st : HMState) (q : Nat × Char × Char) (i : Nat) :
    (hmStep st q).greens i =
      if q.1 = i ∧ q.2.2 = '2' then some q.2.1 else st.greens i := by
  unfold hmStep
  by_cases h2 : q.2.2 = '2'
  · rw [if_pos h2]
    by_cases hi : i = q.1
    · simp [hi, h2]
    · have hne : ¬(q.1 = i ∧ q.2.2 = '2') := fun h => hi h.1.symm
      simp [hi, hne]
  · have hne : ¬(q.1 = i ∧ q.2.2 = '2') := fun h => h2 h.2
    rw [if_neg h2, if_neg hne]
    by_cases h1 : q.2.2 = '1' <;> simp [h1]

theorem hmStep_yellows_mem (st : HMState) (q : Nat × Char × Char) (x : Char) :
    (x ∈ (hmStep st q).yellows ↔
      (q.2.2 = '1' ∧ q.2.1 = x) ∨ x ∈ st.yellows) := by
  unfold hmStep
  by_cases h2 : q.2.2 = '2'
  · have : ¬(q.2.2 = '1' ∧ q.2.1 = x) := fun h => by
      rw [h2] at h
      exact absurd h.1 (by decide)
    simp [h2, this]
  · by_cases h1 : q.2.2 = '1'
    · simp [h2, h1, List.mem_cons]
      tauto
    · have : ¬(q.2.2 = '1' ∧ q.2.1 = x) := fun h => h1 h.1
      simp [h2, h1, this]

theorem hmStep_ypos_mem (st : HMState) (q : Nat × Char × Char)
    (x : Char) (k : Nat) :
    ((x, k) ∈ (hmStep st q).ypos ↔
      (q.2.2 = '1' ∧ q.2.1 = x ∧ q.1 = k) ∨ (x, k) ∈ st.ypos) := by
  unfold hmStep
  by_cases h2 : q.2.2 = '2'
  · have : ¬(q.2.2 = '1' ∧ q.2.1 = x ∧ q.1 = k) := fun h => by
      rw [h2] at h
      exact absurd h.1 (by decide)
    simp [h2, this]
  · by_cases h1 : q.2.2 = '1'
    · simp [h2, h1, List.mem_cons, Prod.ext_iff]
      tauto
    · have : ¬(q.2.2 = '1' ∧ q.2.1 = x ∧ q.1 = k) := fun h => h1 h.1
      simp [h2, h1, this]

theorem hmFoldl_greens (i : Nat) :
    ∀ (l : List (Nat × Char × Char)) (st : HMState),
      (l.foldl hmStep st).greens i =
        l.foldl
          (fun acc q => if q.1 = i ∧ q.2.2 = '2' then some q.2.1 else acc)
          (st.greens i)
  | [], _ => rfl
  | q :: l, st => by
    rw [List.foldl_cons, List.foldl_cons, hmFoldl_greens i l (hmStep st q),
      hmStep_greens st q i]

theorem hmFoldl_yellows_mem (x : Char) :
    ∀ (l : List (Nat × Char × Char)) (st : HMState),
      (x ∈ (l.foldl hmStep st).yellows ↔
        (∃ q ∈ l, q.2.2 = '1' ∧ q.2.1 = x) ∨ x ∈ st.yellows)
  | [], _ => by simp
  | q :: l, st => by
    rw [List.foldl_cons, hmFoldl_yellows_mem x l (hmStep st q)]
    rw [hmStep_yellows_mem st q x]
    simp only [List.mem_cons]
    constructor
    · rintro (⟨q', hq', h⟩ | (h | h))
      · exact Or.inl ⟨q', Or.inr hq', h⟩
      · exact Or.inl ⟨q, Or.inl rfl, h⟩
      · exact Or.inr h
    · rintro (⟨q', hq' | hq', h⟩ | h)
      · exact Or.inr (Or.inl (hq' ▸ h))
      · exact Or.inl ⟨q', hq', h⟩
      · exact Or.inr (Or.inr h)

theorem hmFoldl_ypos_mem (x : Char) (k : Nat) :
    ∀ (l : List (Nat × Char × Char)) (st : HMState),
      ((x, k) ∈ (l.foldl hmStep st).ypos ↔
        (∃ q ∈ l, q.2.2 = '1' ∧ q.2.1 = x ∧ q.1 = k) ∨ (x, k) ∈ st.ypos)
  | [], _ => by simp
  | q :: l, st => by
    rw [List.foldl_cons, hmFoldl_ypos_mem x k l (hmStep st q)]
    rw [hmStep_ypos_mem st q x k]
    simp only [List.mem_cons]
    constructor
    · rintro (⟨q', hq', h⟩ | (h | h))
      · exact Or.inl ⟨q', Or.inr hq', h⟩
      · exact Or.inl ⟨q, Or.inl rfl, h⟩
      · exact Or.inr h
    · rintro (⟨q', hq' | hq', h⟩ | h)
      · exact Or.inr (Or.inl (hq' ▸ h))
      · exact Or.inl ⟨q', hq', h⟩
      · exact Or.inr (Or.inr h)

theorem pin_foldl_sound {β : Type} (P : β → Prop) [DecidablePred P]
    (v : β → Char) :
    ∀ (l : List β) (a : Option Char) (L : Char),
      l.foldl (fun acc q => if P q then some (v q) else acc) a = some L →
        (∃ q ∈ l, P q ∧ v q = L) ∨ a = some L
  | [], _, _, h => Or.inr h
  | q :: l, a, L, h => by
    rw [List.foldl_cons] at h
    rcases pin_foldl_sound P v l _ L h with h1 | h1
    · obtain ⟨q', hq', hh⟩ := h1
      exact Or.inl ⟨q', List.mem_cons_of_mem q hq', hh⟩
    · by_cases hP : P q
      · rw [if_pos hP] at h1
        exact Or.inl ⟨q, List.mem_cons_self q l, hP, Option.some.inj h1⟩
      · rw [if_neg hP] at h1
        exact Or.inr h1

theorem pin_foldl_none {β : Type} (P : β → Prop) [DecidablePred P]
    (v : β → Char) :
    ∀ (l : List β) (a : Option Char), (∀ q ∈ l, ¬ P q) →
      l.foldl (fun acc q => if P q then some (v q) else acc) a = a
  | [], _, _ => rfl
  | q :: l, a, hnp => by
    rw [List.foldl_cons, if_neg (hnp q (List.mem_cons_self q l))]
    exact pin_foldl_none P v l a (fun q' hq' => hnp q' (List.mem_cons_of_mem q hq'))

theorem pin_foldl_complete {β : Type} (P : β → Prop) [DecidablePred P]
    (v : β → Char) :
    ∀ (l : List β) (a : Option Char), (∃ q ∈ l, P q) →
      ∃ L, l.foldl (fun acc q => if P q then some (v q) else acc) a = some L ∧
        ∃ q ∈ l, P q ∧ v q = L
  | [], _, hex => absurd hex (by simp)
  | q :: l, a, hex => by
    by_cases hl : ∃ q' ∈ l, P q'
    · obtain ⟨L, hfold, q', hq', hh⟩ :=
        pin_foldl_complete P v l (if P q then some (v q) else a) hl
      exact ⟨L, by rw [List.foldl_cons]; exact hfold,
        q', List.mem_cons_of_mem q hq', hh⟩
    · have hq : P q := by
        obtain ⟨q', hq', hPq'⟩ := hex
        rcases List.mem_cons.mp hq' with h | h
        · exact h ▸ hPq'
        · exact absurd ⟨q', h, hPq'⟩ hl
      refine ⟨v q, ?_, q, List.mem_cons_self q l, hq, rfl⟩
      rw [List.foldl_cons, if_pos hq]
      exact pin_foldl_none P v l _ (fun q' hq' hP' => hl ⟨q', hq', hP'⟩)

theorem hist_pin_sound (i : Nat) :
    ∀ (l : List (Word × Word)) (a : Option Char) (L : Char),
      l.foldl
        (fun acc p => ((p.1.zip p.2).enum).foldl
          (fun acc q => if q.1 = i ∧ q.2.2 = '2' then some q.2.1 else acc) acc)
        a = some L →
      (∃ p ∈ l, ∃ q ∈ (p.1.zip p.2).enum,
        q.2.2 = '2' ∧ q.2.1 = L ∧ q.1 = i) ∨ a = some L
  | [], _, _, h => Or.inr h
  | p :: l, a, L, h => by
    rw [List.foldl_cons] at h
    rcases hist_pin_sound i l _ L h with h1 | h1
    · obtain ⟨p', hp', hh⟩ := h1
      exact Or.inl ⟨p', List.mem_cons_of_mem p hp', hh⟩
    · rcases pin_foldl_sound (fun q : Nat × Char × Char => q.1 = i ∧ q.2.2 = '2')
        (fun q => q.2.1) ((p.1.zip p.2).enum) a L h1 with h2 | h2
      · obtain ⟨q, hq, hPq, hv⟩ := h2
        exact Or.inl ⟨p, List.mem_cons_self p l, q, hq, hPq.2, hv, hPq.1⟩
      · exact Or.inr h2

theorem hist_pin_none (i : Nat) :
    ∀ (l : List (Word × Word)) (a : Option Char),
      (∀ p ∈ l, ∀ q ∈ (p.1.zip p.2).enum, ¬(q.1 = i ∧ q.2.2 = '2')) →
      l.foldl
        (fun acc p => ((p.1.zip p.2).enum).foldl
          (fun acc q => if q.1 = i ∧ q.2.2 = '2' then some q.2.1 else acc) acc)
        a = a
  | [], _, _ => rfl
  | p :: l, a, hnp => by
    rw [List.foldl_cons,
      pin_foldl_none (fun q : Nat × Char × Char => q.1 = i ∧ q.2.2 = '2')
        (fun q => q.2.1) ((p.1.zip p.2).enum) a
        (hnp p (List.mem_cons_self p l))]
    exact hist_pin_none i l a
      (fun p' hp' => hnp p' (List.mem_cons_of_mem p hp'))

theorem hist_pin_complete (i : Nat) :
    ∀ (l : List (Word × Word)) (a : Option Char),
      (∃ p ∈ l, ∃ q ∈ (p.1.zip p.2).enum, q.1 = i ∧ q.2.2 = '2') →
      ∃ L,
        l.foldl
          (fun acc p => ((p.1.zip p.2).enum).foldl
            (fun acc q => if q.1 = i ∧ q.2.2 = '2' then some q.2.1 else acc) acc)
          a = some L ∧
        ∃ p ∈ l, ∃ q ∈ (p.1.zip p.2).enum,
          q.2.2 = '2' ∧ q.2.1 = L ∧ q.1 = i
  | [], _, hex => absurd hex (by simp)
  | p :: l, a, hex => by
    by_cases hl : ∃ p' ∈ l, ∃ q ∈ (p'.1.zip p'.2).enum, q.1 = i ∧ q.2.2 = '2'
    · obtain ⟨L, hfold, p', hp', hh⟩ := hist_pin_complete i l _ hl
      exact ⟨L, by rw [List.foldl_cons]; exact hfold,
        p', List.mem_cons_of_mem p hp', hh⟩
    · have hp : ∃ q ∈ (p.1.zip p.2).enum, q.1 = i ∧ q.2.2 = '2' := by
        obtain ⟨p', hp', hq'⟩ := hex
        rcases List.mem_cons.mp hp' with h | h
        · exact h ▸ hq'
        · exact absurd ⟨p', h, hq'⟩ hl
      obtain ⟨L, hinner, q, hq, hPq, hv⟩ :=
        pin_foldl_complete (fun q : Nat × Char × Char => q.1 = i ∧ q.2.2 = '2')
          (fun q => q.2.1) ((p.1.zip p.2).enum) a hp
      refine ⟨L, ?_, p, List.mem_cons_self p l, q, hq, hPq.2, hv, hPq.1⟩
      rw [List.foldl_cons, hinner]
      refine hist_pin_none i l (some L) ?_
      intro p' hp' q' hq' hP'
      exact hl ⟨p', hp', q', hq', hP'⟩

theorem hmFold_aux_greens (i : Nat) :
    ∀ (l : List (Word × Word)) (st : HMState),
      (l.foldl (fun st p => ((p.1.zip p.2).enum).foldl hmStep st) st).greens i =
        l.foldl
          (fun acc p => ((p.1.zip p.2).enum).foldl
            (fun acc q => if q.1 = i ∧ q.2.2 = '2' then some q.2.1 else acc) acc)
          (st.greens i)
  | [], _ => rfl
  | p :: l, st => by
    rw [List.foldl_cons, List.foldl_cons, hmFold_aux_greens i l _,
      hmFoldl_greens i]

theorem hmFold_aux_yellows (x : Char) :
    ∀ (l : List (Word × Word)) (st : HMState),
      (x ∈ (l.foldl (fun st p => ((p.1.zip p.2).enum).foldl hmStep st)
          st).yellows ↔
        (∃ p ∈ l, ∃ q ∈ (p.1.zip p.2).enum, q.2.2 = '1' ∧ q.2.1 = x) ∨
          x ∈ st.yellows)
  | [], _ => by simp
  | p :: l, st => by
    rw [List.foldl_cons, hmFold_aux_yellows x l _, hmFoldl_yellows_mem x]
    simp only [List.mem_cons]
    constructor
    · rintro (⟨p', hp', h⟩ | (h | h))
      · exact Or.inl ⟨p', Or.inr hp', h⟩
      · exact Or.inl ⟨p, Or.inl rfl, h⟩
      · exact Or.inr h
    · rintro (⟨p', hp' | hp', h⟩ | h)
      · exact Or.inr (Or.inl (hp' ▸ h))
      · exact Or.inl ⟨p', hp', h⟩
      · exact Or.inr (Or.inr h)

theorem hmFold_aux_ypos (x : Char) (k : Nat) :
    ∀ (l : List (Word × Word)) (st : HMState),
      ((x, k) ∈ (l.foldl (fun st p => ((p.1.zip p.2).enum).foldl hmStep st)
          st).ypos ↔
        (∃ p ∈ l, ∃ q ∈ (p.1.zip p.2).enum,
          q.2.2 = '1' ∧ q.2.1 = x ∧ q.1 = k) ∨ (x, k) ∈ st.ypos)
  | [], _ => by simp
  | p :: l, st => by
    rw [List.foldl_cons, hmFold_aux_ypos x k l _, hmFoldl_ypos_mem x k]
    simp only [List.mem_cons]
    constructor
    · rintro (⟨p', hp', h⟩ | (h | h))
      · exact Or.inl ⟨p', Or.inr hp', h⟩
      · exact Or.inl ⟨p, Or.inl rfl, h⟩
      · exact Or.inr h
    · rintro (⟨p', hp' | hp', h⟩ | h)
      · exact Or.inr (Or.inl (hp' ▸ h))
      · exact Or.inl ⟨p', hp', h⟩
      · exact Or.inr (Or.inr h)

theorem hmFold_greens (guesses feedbacks : List Word) (i : Nat) :
    (hmFold guesses feedbacks).greens i =
      (guesses.zip feedbacks).foldl
        (fun acc p => ((p.1.zip p.2).enum).foldl
          (fun acc q => if q.1 = i ∧ q.2.2 = '2' then some q.2.1 else acc) acc)
        none :=
  hmFold_aux_greens i (guesses.zip feedbacks) ⟨fun _ => none, [], []⟩

theorem hmFold_yellows (guesses feedbacks : List Word) (x : Char) :
    (x ∈ (hmFold guesses feedbacks).yellows ↔
      ∃ p ∈ guesses.zip feedbacks, ∃ q ∈ (p.1.zip p.2).enum,
        q.2.2 = '1' ∧ q.2.1 = x) := by
  rw [hmFold, hmFold_aux_yellows x (guesses.zip feedbacks)]
  simp

theorem hmFold_ypos (guesses feedbacks : List Word) (x : Char) (k : Nat) :
    ((x, k) ∈ (hmFold guesses feedbacks).ypos ↔
      ∃ p ∈ guesses.zip feedbacks, ∃ q ∈ (p.1.zip p.2).enum,
        q.2.2 = '1' ∧ q.2.1 = x ∧ q.1 = k) := by
  rw [hmFold, hmFold_aux_ypos x k (guesses.zip feedbacks)]
  simp

/-- Conversion between the zipped-and-enumerated view of one history pair
and position-indexed claims about its two length-5 words. -/
theorem zipenum_flag_iff (w1 w2 : Word) (h1 : w1.length = 5)
    (h2 : w2.length = 5) (i : Nat) (c L : Char) :
    (∃ q ∈ (w1.zip w2).enum, q.2.2 = c ∧ q.2.1 = L ∧ q.1 = i) ↔
      (i < 5 ∧ w2.getD i ' ' = c ∧ w1.getD i ' ' = L) := by
  constructor
  · rintro ⟨⟨j, a, b⟩, hmem, hbc, haL, hji⟩
    simp only at hbc haL hji
    subst hbc haL hji
    rw [List.mem_enum_iff_getElem?, List.getElem?_zip_eq_some] at hmem
    obtain ⟨ha, hb⟩ := hmem
    have hlt : j < w1.length := by
      by_contra hge
      rw [List.getElem?_eq_none (by omega)] at ha
      cases ha
    refine ⟨by omega, ?_, ?_⟩
    · rw [List.getD_eq_getElem?_getD, hb]
      rfl
    · rw [List.getD_eq_getElem?_getD, ha]
      rfl
  · rintro ⟨hi, hc, hL⟩
    have ha : w1[i]? = some (w1.getD i ' ') := by
      rw [List.getElem?_eq_getElem (by omega), List.getD_eq_getElem?_getD,
        List.getElem?_eq_getElem (by omega)]
      rfl
    have hb : w2[i]? = some (w2.getD i ' ') := by
      rw [List.getElem?_eq_getElem (by omega), List.getD_eq_getElem?_getD,
        List.getElem?_eq_getElem (by omega)]
      rfl
    refine ⟨(i, (w1.getD i ' ', w2.getD i ' ')), ?_, hc, hL, rfl⟩
    rw [List.mem_enum_iff_getElem?, List.getElem?_zip_eq_some]
    exact ⟨ha, hb⟩

/-- C5 counterexample: with two conflicting EXACT flags at position 0
(history AAAAA/"20000" then BBBBB/"20000"), the checker accepts "BCDEF"
although position 0 was pinned to 'A' by a prior EXACT feedback and the
guess does not hold 'A' there — the claimed iff fails as stated (the code
keeps only the latest pin). -/
theorem enforce_hard_mode_conflicting_pins :
    enforce_hard_mode_constraints [("AAAAA".toList), ("BBBBB".toList)]
        [("20000".toList), ("20000".toList)] ("BCDEF".toList) = true ∧
      ("20000".toList).getD 0 ' ' = '2' ∧
      ("AAAAA".toList).getD 0 ' ' = 'A' ∧
      ("BCDEF".toList).getD 0 ' ' ≠ 'A' := by decide

/-- C5 amended: for length-5 history words whose EXACT flags never disagree
about a position (true of any feedback history produced by one secret), the
checker accepts a guess iff (a) every pinned position holds its pinned
letter, (b) every MISPLACED-flagged letter occurs in the guess, and (c) no
guess letter sits at a position where it was flagged MISPLACED. -/
theorem enforce_hard_mode_iff (guesses feedbacks : List Word) (guess : Word)
    (hlen5 : ∀ p ∈ guesses.zip feedbacks, p.1.length = 5 ∧ p.2.length = 5)
    (hcons : ∀ p ∈ guesses.zip feedbacks, ∀ p2 ∈ guesses.zip feedbacks,
      ∀ i < 5, p.2.getD i ' ' = '2' → p2.2.getD i ' ' = '2' →
        p.1.getD i ' ' = p2.1.getD i ' ') :
    (enforce_hard_mode_constraints guesses feedbacks guess = true ↔
      ((∀ p ∈ guesses.zip feedbacks, ∀ i < 5,
          p.2.getD i ' ' = '2' → guess.getD i ' ' = p.1.getD i ' ') ∧
        (∀ p ∈ guesses.zip feedbacks, ∀ i < 5,
          p.2.getD i ' ' = '1' → p.1.getD i ' ' ∈ guess) ∧
        (∀ p ∈ guesses.zip feedbacks, ∀ i < 5,
          p.2.getD i ' ' = '1' → guess.getD i ' ' ≠ p.1.getD i ' '))) := by
  have hgreen : (((List.range 5).all fun i =>
      match (hmFold guesses feedbacks).greens i with
      | none => true
      | some l => decide (guess.getD i ' ' = l)) = true) ↔
      (∀ i < 5, ∀ L, (hmFold guesses feedbacks).greens i = some L →
        guess.getD i ' ' = L) := by
    rw [List.all_eq_true]
    constructor
    · intro h i hi L hL
      have h2 := h i (List.mem_range.mpr hi)
      rw [hL] at h2
      exact of_decide_eq_true h2
    · intro h i hi
      cases hgr : (hmFold guesses feedbacks).greens i with
      | none => rfl
      | some L => exact decide_eq_true (h i (List.mem_range.mp hi) L hgr)
  have hyellow : (((hmFold guesses feedbacks).yellows.all fun l =>
      decide (l ∈ guess) &&
      ((hmFold guesses feedbacks).ypos.all fun q =>
        !(decide (q.1 = l) && decide (guess.getD q.2 ' ' = l)))) = true) ↔
      (∀ l ∈ (hmFold guesses feedbacks).yellows,
        l ∈ guess ∧ ∀ q ∈ (hmFold guesses feedbacks).ypos,
          ¬(q.1 = l ∧ guess.getD q.2 ' ' = l)) := by
    rw [List.all_eq_true]
    constructor
    · intro h l hl
      have h2 := h l hl
      rw [Bool.and_eq_true, List.all_eq_true] at h2
      refine ⟨of_decide_eq_true h2.1, ?_⟩
      intro q hq
      rintro ⟨hq1, hq2⟩
      have h3 := h2.2 q hq
      rw [decide_eq_true hq1, decide_eq_true hq2] at h3
      exact absurd h3 (by decide)
    · intro h l hl
      obtain ⟨h1, h2⟩ := h l hl
      rw [Bool.and_eq_true, List.all_eq_true]
      refine ⟨decide_eq_true h1, ?_⟩
      intro q hq
      by_cases hq1 : q.1 = l
      · by_cases hq2 : guess.getD q.2 ' ' = l
        · exact absurd ⟨hq1, hq2⟩ (h2 q hq)
        · rw [decide_eq_true hq1, decide_eq_false hq2]
          rfl
      · rw [decide_eq_false hq1]
        rfl
  unfold enforce_hard_mode_constraints
  rw [Bool.and_eq_true, hgreen, hyellow]
  constructor
  · rintro ⟨hg, hy⟩
    refine ⟨?_, ?_, ?_⟩
    · intro p hp i hi h2flag
      obtain ⟨hl1, hl2⟩ := hlen5 p hp
      have hex : ∃ p2 ∈ guesses.zip feedbacks,
          ∃ q ∈ (p2.1.zip p2.2).enum, q.1 = i ∧ q.2.2 = '2' := by
        refine ⟨p, hp, ?_⟩
        obtain ⟨q, hq, hqc, hqL, hqi⟩ :=
          (zipenum_flag_iff p.1 p.2 hl1 hl2 i '2' (p.1.getD i ' ')).mpr
            ⟨hi, h2flag, rfl⟩
        exact ⟨q, hq, hqi, hqc⟩
      obtain ⟨L, hfold, p2, hp2, hq2⟩ :=
        hist_pin_complete i (guesses.zip feedbacks) none hex
      have hgr : (hmFold guesses feedbacks).greens i = some L := by
        rw [hmFold_greens]
        exact hfold
      have hgL := hg i hi L hgr
      obtain ⟨hl21, hl22⟩ := hlen5 p2 hp2
      have hps := (zipenum_flag_iff p2.1 p2.2 hl21 hl22 i '2' L).mp hq2
      rw [hgL, ← hps.2.2]
      exact (hcons p hp p2 hp2 i hi h2flag hps.2.1).symm
    · intro p hp i hi h1flag
      obtain ⟨hl1, hl2⟩ := hlen5 p hp
      have hmem : p.1.getD i ' ' ∈ (hmFold guesses feedbacks).yellows := by
        rw [hmFold_yellows]
        refine ⟨p, hp, ?_⟩
        obtain ⟨q, hq, hqc, hqL, hqi⟩ :=
          (zipenum_flag_iff p.1 p.2 hl1 hl2 i '1' (p.1.getD i ' ')).mpr
            ⟨hi, h1flag, rfl⟩
        exact ⟨q, hq, hqc, hqL⟩
      exact (hy _ hmem).1
    · intro p hp i hi h1flag
      obtain ⟨hl1, hl2⟩ := hlen5 p hp
      have hql :=
        (zipenum_flag_iff p.1 p.2 hl1 hl2 i '1' (p.1.getD i ' ')).mpr
          ⟨hi, h1flag, rfl⟩
      have hmemy : p.1.getD i ' ' ∈ (hmFold guesses feedbacks).yellows := by
        rw [hmFold_yellows]
        obtain ⟨q, hq, hqc, hqL, hqi⟩ := hql
        exact ⟨p, hp, q, hq, hqc, hqL⟩
      have hmemp : (p.1.getD i ' ', i) ∈ (hmFold guesses feedbacks).ypos := by
        rw [hmFold_ypos]
        exact ⟨p, hp, hql⟩
      have h3 := (hy _ hmemy).2 (p.1.getD i ' ', i) hmemp
      intro hEq
      exact h3 ⟨rfl, hEq⟩
  · rintro ⟨ha, hb, hc⟩
    constructor
    · intro i hi L hgr
      rw [hmFold_greens] at hgr
      rcases hist_pin_sound i (guesses.zip feedbacks) none L hgr with h | h
      · obtain ⟨p, hp, hq⟩ := h
        obtain ⟨hl1, hl2⟩ := hlen5 p hp
        have hps := (zipenum_flag_iff p.1 p.2 hl1 hl2 i '2' L).mp hq
        rw [ha p hp i hi hps.2.1, hps.2.2]
      · cases h
    · intro l hl
      rw [hmFold_yellows] at hl
      obtain ⟨p, hp, q, hq, hqc, hqL⟩ := hl
      have hql : ∃ q2 ∈ (p.1.zip p.2).enum,
          q2.2.2 = '1' ∧ q2.2.1 = l ∧ q2.1 = q.1 := ⟨q, hq, hqc, hqL, rfl⟩
      obtain ⟨hl1, hl2⟩ := hlen5 p hp
      have hps := (zipenum_flag_iff p.1 p.2 hl1 hl2 q.1 '1' l).mp hql
      constructor
      · have hbp := hb p hp q.1 hps.1 hps.2.1
        rw [hps.2.2] at hbp
        exact hbp
      · intro q2 hq2
        obtain ⟨x2, k2⟩ := q2
        rintro ⟨hq21, hq22⟩
        rw [hmFold_ypos] at hq2
        obtain ⟨p2, hp2, hq3⟩ := hq2
        obtain ⟨hl21, hl22⟩ := hlen5 p2 hp2
        have hps2 := (zipenum_flag_iff p2.1 p2.2 hl21 hl22 k2 '1' x2).mp hq3
        have hcc := hc p2 hp2 k2 hps2.1 hps2.2.1
        rw [hps2.2.2] at hcc
        simp only at hq21 hq22
        rw [hq21] at hcc
        exact hcc hq22

/-- C5 witness: the amended iff applied at history [(CRATE, "02000")] and
guess SLATE (which lacks 'R' at its pinned position 1 — the iff's
right-hand side fails, so the checker rejects). -/
theorem enforce_hard_mode_iff_witness :
    (∀ p ∈ [wCRATE].zip [("02000".toList)],
        p.1.length = 5 ∧ p.2.length = 5) ∧
      (∀ p ∈ [wCRATE].zip [("02000".toList)],
        ∀ p2 ∈ [wCRATE].zip [("02000".toList)],
        ∀ i < 5, p.2.getD i ' ' = '2' → p2.2.getD i ' ' = '2' →
          p.1.getD i ' ' = p2.1.getD i ' ') ∧
      (enforce_hard_mode_constraints [wCRATE] [("02000".toList)] wSLATE =
          true ↔
        ((∀ p ∈ [wCRATE].zip [("02000".toList)], ∀ i < 5,
            p.2.getD i ' ' = '2' → wSLATE.getD i ' ' = p.1.getD i ' ') ∧
          (∀ p ∈ [wCRATE].zip [("02000".toList)], ∀ i < 5,
            p.2.getD i ' ' = '1' → p.1.getD i ' ' ∈ wSLATE) ∧
          (∀ p ∈ [wCRATE].zip [("02000".toList)], ∀ i < 5,
            p.2.getD i ' ' = '1' → wSLATE.getD i ' ' ≠ p.1.getD i ' '))) :=
  ⟨by decide, by decide,
    enforce_hard_mode_iff [wCRATE] [("02000".toList)] wSLATE
      (by decide) (by decide)⟩

end WordleSolver
